import Mathlib

set_option maxHeartbeats 1000000

/-!
Verification of the width-constrained wrapping core of `tabled`
(`src/features/width/wrap.rs`).

Strings are modelled as `List Char`.  The external `unicode_width` crate's
per-character rendered width is a parameter `cw : Char → Nat`; known facts
about it (a space renders at one column, the replacement marker at one
column, a newline at zero columns) appear as hypotheses where a theorem
needs them.  `charWidth` below is a concrete instance used for witnesses.
-/

/-- The replacement marker `'\u{FFFD}'` used by `chunks` and
`split_keeping_words` when a glyph cannot fit in the remaining columns. -/
def REPLACEMENT : Char := '�'

/-- Rendered width of a string: `unicode_width::UnicodeWidthStr::width`,
the sum of the per-character widths. -/
def strWidth (cw : Char → Nat) (s : List Char) : Nat := (s.map cw).sum

/-- Concrete width table used for witnesses, modelling the `unicode_width`
crate on the characters that appear in them: control characters render at
zero columns, the wide emoji at two, ASCII at one. -/
def charWidth (c : Char) : Nat :=
  if c = '\n' ∨ c = '\t' then 0 else if c = '😳' then 2 else 1

/-- Main loop of `chunks` (`wrap.rs` lines 243-260): `buf` is the line being
built and `i` its rendered width so far.  A character whose width would
overflow the remaining budget is replaced by one marker per remaining
column; a line is emitted exactly when `i` reaches `width`. -/
def chunksGo (cw : Char → Nat) (width : Nat) : List Char → List Char → Nat → List (List Char)
  | [], buf, _ => if buf.isEmpty then [] else [buf]
  | c :: cs, buf, i =>
      if width < i + cw c then
        (buf ++ List.replicate (width - i) REPLACEMENT) :: chunksGo cw width cs [] 0
      else
        if i + cw c = width then (buf ++ [c]) :: chunksGo cw width cs [] 0
        else chunksGo cw width cs (buf ++ [c]) (i + cw c)

/-- `chunks(s, width)` (`wrap.rs` lines 234-267): plain-mode wrapping into a
list of lines. -/
def chunks (cw : Char → Nat) (s : List Char) (width : Nat) : List (List Char) :=
  if width = 0 then [] else chunksGo cw width s [] 0

/-- Rust `str::split(sep)`: split on every occurrence of `sep`, keeping empty
pieces (so the result is always non-empty). -/
def splitOnChar (sep : Char) : List Char → List (List Char)
  | [] => [[]]
  | c :: cs =>
      if c = sep then [] :: splitOnChar sep cs
      else
        match splitOnChar sep cs with
        | [] => [[c]]
        | w :: ws => (c :: w) :: ws

/-- The `papergrid::util::split_at_pos` helper used by `split_string_at`
(`wrap.rs` lines 561-568), an external utility of the `papergrid` crate:
walk the string accumulating rendered width `w`; stop once `pos` columns
are reached, and if a glyph straddles the boundary return the number of
replacement markers (`pos - w`) plus a flag saying that this glyph is cut
away.  Returns `(lhs, rhs, unknowns, cut)`. -/
def splitAtPosGo (cw : Char → Nat) (pos : Nat) : List Char → Nat → List Char × List Char × Nat × Bool
  | [], _ => ([], [], 0, false)
  | c :: cs, w =>
      if w = pos then ([], c :: cs, 0, false)
      else if pos < w + cw c then ([], c :: cs, pos - w, true)
      else
        let r := splitAtPosGo cw pos cs (w + cw c)
        (c :: r.1, r.2.1, r.2.2.1, r.2.2.2)

/-- `split_at_pos(text, at)` starting with zero accumulated width. -/
def splitAtPos (cw : Char → Nat) (pos : Nat) (s : List Char) : List Char × List Char × Nat × Bool :=
  splitAtPosGo cw pos s 0

/-- State of `split_keeping_words` (`wrap.rs` lines 347-424): the emitted
lines, the line being built, its rendered width, and the `is_first_word`
flag. -/
structure SkwSt where
  lines : List (List Char)
  line : List Char
  lineWidth : Nat
  isFirstWord : Bool
deriving Repr, DecidableEq

/-- Fuel-indexed model of the inner word-splitting loop of
`split_keeping_words` (`wrap.rs` lines 395-414): a word wider than `width`
is cut with `split_string_at`, replacement markers fill a straddled glyph,
and the line is emitted when it reaches exactly `width`.  `none` means the
fuel ran out before the loop finished. -/
def skwWordLoopF (cw : Char → Nat) (width : Nat) : Nat → List Char → SkwSt → Option SkwSt
  | 0, _, _ => none
  | _ + 1, [], st => some st
  | n + 1, c :: cs, st =>
      let r := splitAtPos cw (width - st.lineWidth) (c :: cs)
      let rest := if r.2.2.2 then r.2.1.tail else r.2.1
      let lw := st.lineWidth + strWidth cw r.1 + r.2.2.1
      let line := st.line ++ r.1 ++ List.replicate r.2.2.1 REPLACEMENT
      if lw = width then
        skwWordLoopF cw width n rest ⟨st.lines ++ [line], [], 0, true⟩
      else
        skwWordLoopF cw width n rest ⟨st.lines, line, lw, false⟩

/-- The inner word-splitting loop run with provably sufficient fuel
(`skwWordLoopF_total` below shows `2 * wp.length + 2` steps always finish
when `width > 0` and the line has not overflown; the Rust loop does not
terminate when `width = 0`, a state `wrap_text` makes unreachable by
returning early, and in that case this model returns the state unchanged). -/
def skwWordLoop (cw : Char → Nat) (width : Nat) (wp : List Char) (st : SkwSt) : SkwSt :=
  (skwWordLoopF cw width (2 * wp.length + 2) wp st).getD st

/-- The prelude of one word iteration of `split_keeping_words` (`wrap.rs`
lines 358-369): push a separating space when this is not the first word
and the line has room, then clear the first-word flag. -/
def skwSpace (width : Nat) (st : SkwSt) : SkwSt :=
  let st1 :=
    if st.isFirstWord = false ∧ st.lineWidth < width then
      { st with line := st.line ++ [' '], lineWidth := st.lineWidth + 1 }
    else st
  { st1 with isFirstWord := false }

/-- Processing of one word by `split_keeping_words` (`wrap.rs` lines
357-416): push a separating space when the line has room, then either
append the word, move it to a fresh line padding the old one with spaces,
or cut it with the inner loop. -/
def skwStep (cw : Char → Nat) (width : Nat) (st : SkwSt) (word : List Char) : SkwSt :=
  let st1 := skwSpace width st
  let ww := strWidth cw word
  if st1.lineWidth + ww ≤ width then
    { st1 with line := st1.line ++ word, lineWidth := st1.lineWidth + ww }
  else if ww ≤ width then
    { st1 with
        lines := st1.lines ++ [st1.line ++ List.replicate (width - st1.lineWidth) ' '],
        line := word, lineWidth := ww, isFirstWord := false }
  else
    skwWordLoop cw width word st1

/-- Fold of `skwStep` over the words of the input. -/
def skwGo (cw : Char → Nat) (width : Nat) : List (List Char) → SkwSt → SkwSt
  | [], st => st
  | w :: ws, st => skwGo cw width ws (skwStep cw width st w)

/-- `split_keeping_words(s, width, sep)` (`wrap.rs` lines 347-424) as the
list of produced lines (the Rust function returns them joined with `sep`):
split on spaces, process each word, and pad a final partially-filled line
with spaces to exactly `width`. -/
def splitKeepingWords (cw : Char → Nat) (s : List Char) (width : Nat) : List (List Char) :=
  let st := skwGo cw width (splitOnChar ' ' s) ⟨[], [], 0, true⟩
  if 0 < st.lineWidth then
    st.lines ++ [st.line ++ List.replicate (width - st.lineWidth) ' ']
  else st.lines

/-- Joining a list of lines with `"\n"`, modelling `Vec::join("\n")`. -/
def joinSep : List (List Char) → List Char
  | [] => []
  | [l] => l
  | l :: l2 :: ls => l ++ '\n' :: joinSep (l2 :: ls)

/-- The list of lines produced by `wrap_text(text, width, keep_words)`
(`wrap.rs` lines 189-199): empty at width zero, otherwise the
word-preserving or the plain-mode lines. -/
def wrapTextList (cw : Char → Nat) (s : List Char) (width : Nat) (keepWords : Bool) : List (List Char) :=
  if width = 0 then []
  else if keepWords then splitKeepingWords cw s width
  else chunks cw s width

/-- `wrap_text(text, width, keep_words)` (`wrap.rs` lines 189-199). -/
def wrapText (cw : Char → Nat) (s : List Char) (width : Nat) (keepWords : Bool) : List Char :=
  joinSep (wrapTextList cw s width keepWords)

/-- Termination measure of the inner word-splitting loop: two steps per
remaining character, plus one extra step for the flush that frees a line
already at capacity. -/
def skwMeasure (width : Nat) (wp : List Char) (lw : Nat) : Nat :=
  2 * wp.length + (if lw < width then 1 else 2)

/-- `skwStep` with the inner loop at an explicit fuel `n` instead of the
computed sufficient bound: the faithful image of one word iteration of the
Rust loop, which runs the inner `while` with no bound at all. -/
def skwStepF (cw : Char → Nat) (width n : Nat) (st : SkwSt) (word : List Char) : Option SkwSt :=
  let st1 := skwSpace width st
  let ww := strWidth cw word
  if st1.lineWidth + ww ≤ width then
    some { st1 with line := st1.line ++ word, lineWidth := st1.lineWidth + ww }
  else if ww ≤ width then
    some { st1 with
        lines := st1.lines ++ [st1.line ++ List.replicate (width - st1.lineWidth) ' '],
        line := word, lineWidth := ww, isFirstWord := false }
  else
    skwWordLoopF cw width n word st1

/-- The word fold of `split_keeping_words` at explicit fuel `n`. -/
def skwGoF (cw : Char → Nat) (width n : Nat) : List (List Char) → SkwSt → Option SkwSt
  | [], st => some st
  | w :: ws, st =>
      match skwStepF cw width n st w with
      | none => none
      | some st' => skwGoF cw width n ws st'

/-- The non-color `wrap_text` (`wrap.rs` lines 189-199) with every loop at
explicit fuel `n`: `none` means some loop did not finish within `n` steps
(the non-color `chunks` is a structural fold over the characters and needs
no fuel; the unbounded loop is the word-splitting one).
`wrap_text_terminates` below shows a sufficient `n` exists for every
input, which is the termination claim for the Rust loops. -/
def wrapTextF (cw : Char → Nat) (n : Nat) (s : List Char) (width : Nat) (keepWords : Bool) :
    Option (List Char) :=
  if width = 0 then some []
  else if keepWords then
    (skwGoF cw width n (splitOnChar ' ' s) ⟨[], [], 0, true⟩).map (fun st =>
      joinSep (if 0 < st.lineWidth then
          st.lines ++ [st.line ++ List.replicate (width - st.lineWidth) ' ']
        else st.lines))
  else some (joinSep (chunks cw s width))

/-- `papergrid::util::string_width_multiline`, an external utility of the
`papergrid` crate: the rendered width of a multiline string is the widest
of its newline-separated lines. -/
def stringWidthMultiline (cw : Char → Nat) (s : List Char) : Nat :=
  ((splitOnChar '\n' s).map (strWidth cw)).foldr max 0

/-- Modelled from the spec: `papergrid::util::replace_tab` — tabs are
expanded to spaces using the configured tab width before wrapping
(spec section 6, external interface `get_text`). -/
def replaceTab (tabWidth : Nat) : List Char → List Char
  | [] => []
  | c :: cs => (if c = '\t' then List.replicate tabWidth ' ' else [c]) ++ replaceTab tabWidth cs

/-- Modelled from the spec: the external grid/record store (spec section 6),
a 2-D record store keyed by row and column exposing get and set of cell
text; modelled as a shape plus a text map. -/
structure GridTable where
  rows : Nat
  cols : Nat
  text : Nat × Nat → List Char

/-- `get_text(position)` of the grid layer (spec section 6). -/
def getText (t : GridTable) (p : Nat × Nat) : List Char := t.text p

/-- `get_rendered_width(position, width_function)` of the grid layer
(spec section 6), via `string_width_multiline`. -/
def cellWidth (cw : Char → Nat) (t : GridTable) (p : Nat × Nat) : Nat :=
  stringWidthMultiline cw (getText t p)

/-- `set_text(position, new_text, width_function)` of the grid layer
(spec section 6). -/
def setText (t : GridTable) (p : Nat × Nat) (v : List Char) : GridTable :=
  { t with text := fun q => if q = p then v else t.text q }

/-- One iteration of the loop of `Wrap::change_cell` (`wrap.rs` lines
104-128): a cell whose current rendered width already fits within the
target is skipped; otherwise its tab-expanded text is wrapped and written
back. -/
def changeCellAt (cw : Char → Nat) (tabWidth width : Nat) (keepWords : Bool)
    (t : GridTable) (p : Nat × Nat) : GridTable :=
  if cellWidth cw t p ≤ width then t
  else setText t p (wrapText cw (replaceTab tabWidth (getText t p)) width keepWords)

/-- `Wrap::change_cell` (`wrap.rs` lines 99-131) over the list of positions
produced by `entity.iter`. -/
def changeCell (cw : Char → Nat) (tabWidth width : Nat) (keepWords : Bool)
    (ps : List (Nat × Nat)) (t : GridTable) : GridTable :=
  ps.foldl (changeCellAt cw tabWidth width keepWords) t

/-- Modelled from the spec: the three priority policies (spec section 4.2);
`priorityNone` carries the index one past the last pick for its cyclic
sweep. -/
inductive Peaker where
  | priorityNone (next : Nat)
  | priorityMax
  | priorityMin
deriving Repr, DecidableEq

/-- A column is eligible for shrinking when its width still exceeds its
minimum (spec section 4.1). -/
def eligible (ws ms : List Nat) (i : Nat) : Bool := decide (ms.getD i 0 < ws.getD i 0)

/-- Scan step keeping the better of two candidate columns; strict
comparison, so ties keep the earlier (lowest) index. -/
def pickStep (better : Nat → Nat → Bool) (acc : Option Nat) (i : Nat) : Option Nat :=
  match acc with
  | none => some i
  | some j => if better i j then some i else some j

/-- Best eligible column in index order under `better`. -/
def pickBest (better : Nat → Nat → Bool) (ws ms : List Nat) : Option Nat :=
  ((List.range ws.length).filter (eligible ws ms)).foldl (pickStep better) none

/-- Modelled from the spec: `Peaker::peak` (spec section 4.2) — return an
eligible column together with the successor policy state, or `none` when
every column is at its minimum: `priorityNone` cycles left to right from
the last pick, `priorityMax` takes the widest eligible column,
`priorityMin` the narrowest still above its minimum, ties at the lowest
index. -/
def peek (p : Peaker) (ms ws : List Nat) : Option (Nat × Peaker) :=
  match p with
  | .priorityNone next =>
      match (List.range ws.length).find? (fun i => decide (next ≤ i) && eligible ws ms i) with
      | some i => some (i, .priorityNone (i + 1))
      | none =>
          match (List.range ws.length).find? (eligible ws ms) with
          | some i => some (i, .priorityNone (i + 1))
          | none => none
  | .priorityMax =>
      match pickBest (fun a b => decide (ws.getD b 0 < ws.getD a 0)) ws ms with
      | some i => some (i, .priorityMax)
      | none => none
  | .priorityMin =>
      match pickBest (fun a b => decide (ws.getD a 0 < ws.getD b 0)) ws ms with
      | some i => some (i, .priorityMin)
      | none => none

/-- Modelled from the spec: the loop of `decrease_widths` (spec section
4.1) — shrink the policy's chosen column one unit at a time until the
running total reaches the target or no column is eligible.  The running
total starts at `total` and falls by one per step, so the loop runs at
most `total - target` times; that difference is the counter here. -/
def decreaseWidthsGo (ms : List Nat) : Nat → List Nat → Peaker → List Nat
  | 0, ws, _ => ws
  | n + 1, ws, p =>
      match peek p ms ws with
      | none => ws
      | some (i, p') => decreaseWidthsGo ms n (ws.set i (ws.getD i 0 - 1)) p'

/-- Modelled from the spec: `decrease_widths(widths, min_widths, total,
target, priority)` of the width-truncation module (spec section 4.1). -/
def decreaseWidths (ws ms : List Nat) (total target : Nat) (p : Peaker) : List Nat :=
  decreaseWidthsGo ms (total - target) ws p

/-- Modelled from the spec: `get_table_widths` (spec section 6) — each
column's width is the widest cell in it. -/
def columnWidth (cw : Char → Nat) (t : GridTable) (c : Nat) : Nat :=
  ((List.range t.rows).map (fun r => cellWidth cw t (r, c))).foldr max 0

/-- The per-column width vector of the current content. -/
def tableWidths (cw : Char → Nat) (t : GridTable) : List Nat :=
  (List.range t.cols).map (columnWidth cw t)

/-- Modelled from the spec: the table's total width (spec section 6),
`get_table_widths_with_total`. -/
def totalWidth (cw : Char → Nat) (t : GridTable) : Nat :=
  (tableWidths cw t).sum

/-- Modelled from the spec: `get_decrease_cell_list` (spec section 4.3) —
one work item (position, new column width) for every cell whose rendered
width exceeds its column's allocation; fitting cells are omitted. -/
def getDecreaseCellList (cw : Char → Nat) (t : GridTable) (ws : List Nat) :
    List ((Nat × Nat) × Nat) :=
  (List.range t.rows).flatMap (fun r =>
    ((List.range t.cols).filter (fun c => decide (ws.getD c 0 < cellWidth cw t (r, c)))).map
      (fun c => ((r, c), ws.getD c 0)))

/-- `wrap_total_width` (`wrap.rs` lines 158-186): allocate the shrunken
column widths, compute the work list, and wrap each listed cell at its new
width. -/
def wrapTotalWidth (cw : Char → Nat) (tabWidth : Nat) (keepWords : Bool) (p : Peaker)
    (t : GridTable) (widths : List Nat) (totalW width : Nat) : GridTable :=
  let minWidths := List.replicate t.cols 0
  let ws := decreaseWidths widths minWidths totalW width p
  (getDecreaseCellList cw t ws).foldl
    (fun tb pt => changeCellAt cw tabWidth pt.2 keepWords tb pt.1) t

/-- `Wrap::change` for the whole table (`wrap.rs` lines 140-156): empty
tables and tables whose total width already fits the target are left
untouched; otherwise the columns are shrunk and the affected cells
re-wrapped. -/
def wrapChange (cw : Char → Nat) (tabWidth width : Nat) (keepWords : Bool) (p : Peaker)
    (t : GridTable) : GridTable :=
  if t.rows = 0 ∨ t.cols = 0 then t
  else if totalWidth cw t ≤ width then t
  else wrapTotalWidth cw tabWidth keepWords p t (tableWidths cw t) (totalWidth cw t) width

/-- A line emitted by `chunks` at the moment the running width reached
`width`: total rendered width exactly `width`, every shorter cut strictly
below it. -/
def FullLine (cw : Char → Nat) (width : Nat) (l : List Char) : Prop :=
  strWidth cw l = width ∧ ∀ k, k < l.length → strWidth cw (l.take k) < width

/-- A trailing line of `chunks` that never reached `width`. -/
def SlackLine (cw : Char → Nat) (width : Nat) (l : List Char) : Prop :=
  ∀ k, strWidth cw (l.take k) < width

/-- Shape of a `chunks` output: every line is full except possibly a
non-empty slack last line. -/
def ChunksShape (cw : Char → Nat) (width : Nat) : List (List Char) → Prop
  | [] => True
  | [l] => FullLine cw width l ∨ (SlackLine cw width l ∧ l ≠ [])
  | l :: l2 :: ls => FullLine cw width l ∧ ChunksShape cw width (l2 :: ls)

/-- The lines of a re-wrapped joined string: the old lines, each line after
the first carrying the separating newline it absorbed. -/
def interleave : List (List Char) → List (List Char)
  | [] => []
  | l :: ls => l :: ls.map (fun x => '\n' :: x)

/-- Concrete one-cell table used by the C6 witness. -/
def tableEx : GridTable :=
  ⟨1, 1, fun p => if p = (0, 0) then ['a', 'b'] else []⟩

/-- State of the color-feature `split_keeping_words` (`wrap.rs` lines
427-559): the output buffer, current line width, the buffer position where
the current word began, the width of the word so far, and the
emptiness flag. -/
structure SkwcSt where
  buf : List Char
  lineWidth : Nat
  wordBeginPos : Nat
  wordLength : Nat
  isEmptyBuf : Bool
deriving Repr, DecidableEq

/-- One character step of the color-feature `split_keeping_words`
(`wrap.rs` lines 461-543), restricted to styling-free text: with no escape
sequences `ansi_str::get_blocks` yields a single block whose start and end
are empty and `strip_osc` yields no hyperlink, so prefix, suffix, block
start and block end are all empty and the `split` marker is exactly one
newline.  A word that would still fit at the start of a fresh line is
moved there by inserting a newline at its begin position, without padding
the abandoned line. -/
def skwcStep (cw : Char → Nat) (width : Nat) (st : SkwcSt) (c : Char) : SkwcSt :=
  let cWidth := cw c
  let isEnough := st.lineWidth + cWidth ≤ width
  if c = ' ' then
    let st := { st with wordLength := 0, wordBeginPos := 0 }
    let st := if ¬ isEnough then { st with buf := st.buf ++ ['\n'], lineWidth := 0 } else st
    { st with buf := st.buf ++ [c], lineWidth := st.lineWidth + 1, isEmptyBuf := false }
  else
    let st := if st.wordLength = 0 then { st with wordBeginPos := st.buf.length } else st
    if isEnough then
      { st with
          buf := st.buf ++ [c]
          wordLength := st.wordLength + cWidth
          lineWidth := st.lineWidth + cWidth
          isEmptyBuf := false }
    else
      let pww := st.wordLength + cWidth
      if pww ≤ width then
        let st := if st.isEmptyBuf = false then
            { st with buf := st.buf.take st.wordBeginPos ++ '\n' :: st.buf.drop st.wordBeginPos }
          else st
        { st with
            buf := st.buf ++ [c]
            lineWidth := pww
            wordLength := st.wordLength + cWidth
            isEmptyBuf := false }
      else
        let st := if st.isEmptyBuf = false then { st with buf := st.buf ++ ['\n'] } else st
        if width < cWidth then
          { st with
              buf := st.buf ++ List.replicate width REPLACEMENT
              lineWidth := width
              wordLength := width
              isEmptyBuf := false }
        else
          { st with
              buf := st.buf ++ [c]
              lineWidth := cWidth
              wordLength := st.wordLength + cWidth
              isEmptyBuf := false }

/-- The color-feature `split_keeping_words(text, width, prefix, suffix)`
(`wrap.rs` lines 427-559) on styling-free text: empty input or zero width
yield the empty string, and only the last line is padded out to `width`. -/
def splitKeepingWordsColor (cw : Char → Nat) (text : List Char) (width : Nat) : List Char :=
  if text.isEmpty ∨ width = 0 then []
  else
    let st := text.foldl (skwcStep cw width) ⟨[], 0, 0, 0, true⟩
    if st.lineWidth < width then st.buf ++ List.replicate (width - st.lineWidth) ' '
    else st.buf

/-- Inner `while !part.is_empty()` loop of the color-feature `chunks`
(`wrap.rs` lines 291-332), restricted to styling-free text (prefix,
suffix, block start and block end all empty), at explicit fuel: a part
that fits the available space is pushed whole, closing the line if no
capacity was left; otherwise `split_string_at` cuts it at the available
space, replacement markers fill a straddled glyph, and the line is emitted
when its width reaches exactly `width`.  `none` means the fuel ran out
before the loop finished. -/
def chunksColorLoopF (cw : Char → Nat) (width : Nat) :
    Nat → List Char → List (List Char) → List Char → Nat →
    Option (List (List Char) × List Char × Nat)
  | 0, _, _, _, _ => none
  | _ + 1, [], list, line, lw => some (list, line, lw)
  | n + 1, c :: cs, list, line, lw =>
      if strWidth cw (c :: cs) ≤ width - lw then
        if width - lw = 0 then some (list ++ [line ++ c :: cs], [], 0)
        else some (list, line ++ c :: cs, lw + strWidth cw (c :: cs))
      else
        let r := splitAtPos cw (width - lw) (c :: cs)
        let rest := if r.2.2.2 then r.2.1.tail else r.2.1
        let lw' := lw + strWidth cw r.1 + r.2.2.1
        let line' := line ++ r.1 ++ List.replicate r.2.2.1 REPLACEMENT
        if lw' = width then chunksColorLoopF cw width n rest (list ++ [line']) [] 0
        else chunksColorLoopF cw width n rest list line' lw'

/-- The color-feature `chunks(s, width, prefix, suffix)` (`wrap.rs` lines
269-345) on styling-free text, at explicit fuel: zero width yields no
lines, empty text produces no block, and a final line of positive width is
emitted after the loop. -/
def chunksColorF (cw : Char → Nat) (width n : Nat) (s : List Char) :
    Option (List (List Char)) :=
  if width = 0 then some []
  else if s.isEmpty then some []
  else
    match chunksColorLoopF cw width n s [] [] 0 with
    | none => none
    | some (list, line, lw) => some (if 0 < lw then list ++ [line] else list)

/-- The color-feature `chunks` run with provably sufficient fuel
(`chunksColorF_total` below shows `2 * s.length + 2` steps always
finish). -/
def chunksColor (cw : Char → Nat) (s : List Char) (width : Nat) : List (List Char) :=
  (chunksColorF cw width (2 * s.length + 2) s).getD []

/-- The color-feature `wrap_text(text, width, keep_words)` (`wrap.rs`
lines 202-217) on styling-free text: `strip_osc` extracts no hyperlink, so
the prefix and suffix are empty; the word-preserving branch is the
character fold `splitKeepingWordsColor`. -/
def wrapTextColor (cw : Char → Nat) (s : List Char) (width : Nat) (keepWords : Bool) :
    List Char :=
  if width = 0 then []
  else if keepWords then splitKeepingWordsColor cw s width
  else joinSep (chunksColor cw s width)

/-- The color-feature `wrap_text` with its `chunks` while-loop at explicit
fuel `n` (the word-preserving branch folds over the characters and needs
no fuel). -/
def wrapTextColorF (cw : Char → Nat) (n : Nat) (s : List Char) (width : Nat)
    (keepWords : Bool) : Option (List Char) :=
  if width = 0 then some []
  else if keepWords then some (splitKeepingWordsColor cw s width)
  else (chunksColorF cw width n s).map joinSep

theorem strWidth_nil (cw : Char → Nat) : strWidth cw [] = 0 := rfl

theorem strWidth_cons (cw : Char → Nat) (c : Char) (s : List Char) :
    strWidth cw (c :: s) = cw c + strWidth cw s := by
  simp [strWidth]

theorem strWidth_append (cw : Char → Nat) (a b : List Char) :
    strWidth cw (a ++ b) = strWidth cw a + strWidth cw b := by
  simp [strWidth]

theorem strWidth_replicate (cw : Char → Nat) (n : Nat) (a : Char) (h : cw a = 1) :
    strWidth cw (List.replicate n a) = n := by
  induction n with
  | zero => rfl
  | succ n ih => simp [List.replicate_succ, strWidth_cons, h, ih, Nat.add_comm]

theorem strWidth_take_le (cw : Char → Nat) (k : Nat) (l : List Char) :
    strWidth cw (l.take k) ≤ strWidth cw l := by
  induction l generalizing k with
  | nil => simp [strWidth]
  | cons c cs ih =>
      cases k with
      | zero => simp [strWidth]
      | succ k => simpa [strWidth_cons] using Nat.add_le_add_left (ih k) (cw c)

theorem strWidth_take_append (cw : Char → Nat) (a b : List Char) (k : Nat) :
    strWidth cw ((a ++ b).take k) = strWidth cw (a.take k) + strWidth cw (b.take (k - a.length)) := by
  induction a generalizing k with
  | nil => simp [strWidth]
  | cons c a ih =>
      cases k with
      | zero => simp [strWidth]
      | succ k => simp [strWidth_cons, ih k, Nat.add_assoc, Nat.succ_sub_succ]

theorem chunksGo_width_le (cw : Char → Nat) (width : Nat) (hr : cw REPLACEMENT = 1)
    (cs : List Char) : ∀ buf i, i = strWidth cw buf → i < width →
    ∀ l ∈ chunksGo cw width cs buf i, strWidth cw l ≤ width := by
  induction cs with
  | nil =>
      intro buf i hbuf hlt l hl
      simp only [chunksGo] at hl
      by_cases hb : buf.isEmpty <;> simp [hb] at hl
      subst hl
      exact Nat.le_of_lt (hbuf ▸ hlt)
  | cons c cs ih =>
      intro buf i hbuf hlt l hl
      simp only [chunksGo] at hl
      by_cases hover : width < i + cw c
      · simp only [if_pos hover, List.mem_cons] at hl
        rcases hl with h | h
        · subst h
          rw [strWidth_append, strWidth_replicate cw _ _ hr, ← hbuf]
          omega
        · exact ih [] 0 rfl (by omega) l h
      · simp only [if_neg hover] at hl
        by_cases hfit : i + cw c = width
        · simp only [if_pos hfit, List.mem_cons] at hl
          rcases hl with h | h
          · subst h
            rw [strWidth_append, strWidth_cons, strWidth_nil, ← hbuf]
            omega
          · exact ih [] 0 rfl (by omega) l h
        · simp only [if_neg hfit] at hl
          refine ih (buf ++ [c]) (i + cw c) ?_ (by omega) l hl
          rw [strWidth_append, strWidth_cons, strWidth_nil, ← hbuf]
          omega

theorem chunks_width_le (cw : Char → Nat) (s : List Char) (width : Nat)
    (hr : cw REPLACEMENT = 1) : ∀ l ∈ chunks cw s width, strWidth cw l ≤ width := by
  intro l hl
  unfold chunks at hl
  by_cases hw : width = 0
  · simp [hw] at hl
  · rw [if_neg hw] at hl
    exact chunksGo_width_le cw width hr s [] 0 rfl (Nat.pos_of_ne_zero hw) l hl

theorem chunksGo_join (cw : Char → Nat) (width : Nat) (cs : List Char) :
    ∀ buf i, i < width → (∀ c ∈ cs, cw c = 1) →
    (chunksGo cw width cs buf i).flatten = buf ++ cs := by
  induction cs with
  | nil =>
      intro buf i _ _
      by_cases hb : buf.isEmpty
      · simp [chunksGo, hb, List.isEmpty_iff.mp hb]
      · simp [chunksGo, hb]
  | cons c cs ih =>
      intro buf i hlt hone
      have hc : cw c = 1 := hone c (List.mem_cons_self c cs)
      have hrest : ∀ x ∈ cs, cw x = 1 := fun x hx => hone x (List.mem_cons_of_mem c hx)
      have hover : ¬ width < i + cw c := by omega
      simp only [chunksGo, if_neg hover]
      by_cases hfit : i + cw c = width
      · have h0 : (0 : Nat) < width := by omega
        simp [if_pos hfit, ih [] 0 h0 hrest]
      · have : i + cw c < width := by omega
        simp [if_neg hfit, ih (buf ++ [c]) (i + cw c) this hrest]

/-- C10: for a string all of whose characters render at exactly one column
and any positive width, the lines of plain-mode `chunks` concatenate back to
the input: nothing is lost and no replacement markers appear
(`wrap.rs` lines 234-267). -/
theorem chunks_join_single_width (cw : Char → Nat) (s : List Char) (width : Nat)
    (hw : 0 < width) (hone : ∀ c ∈ s, cw c = 1) :
    (chunks cw s width).flatten = s := by
  unfold chunks
  rw [if_neg (Nat.pos_iff_ne_zero.mp hw)]
  simpa using chunksGo_join cw width s [] 0 hw hone

theorem chunks_join_single_width_witness :
    (0 : Nat) < 2 ∧ (chunks charWidth ['1', '2', '3', '4', '5'] 2).flatten = ['1', '2', '3', '4', '5'] :=
  ⟨by decide, chunks_join_single_width charWidth ['1', '2', '3', '4', '5'] 2 (by decide) (by decide)⟩

/-- C2 (counterexample): in plain mode at width 3, two double-width glyphs
yield the single line `"😳�"`; the overflowing second glyph is consumed and
replaced, so it does not start a following line — there is no following
line at all, contradicting the claim that the character itself appears at
the start of the next line. -/
theorem chunks_overflow_char_not_carried :
    chunks charWidth ['😳', '😳'] 3 = [['😳', REPLACEMENT]] ∧
      ¬ ∃ l2 ls, chunks charWidth ['😳', '😳'] 3 = ['😳', REPLACEMENT] :: l2 :: ls := by
  constructor
  · decide
  · intro ⟨l2, ls, h⟩
    have : ([['😳', REPLACEMENT]] : List (List Char)) = ['😳', REPLACEMENT] :: l2 :: ls := by
      rw [← h]; decide
    simp at this

/-- C2 (amended): in plain mode, when a character's rendered width would
overflow the remaining budget of the current line, `chunks` pads the rest
of the line with replacement markers (one per remaining column) and closes
it at exactly `width` columns; the overflowing character itself is consumed
(replaced by those markers) and wrapping continues with the characters
after it on a fresh line — the character does not begin the next line
(`wrap.rs` lines 244-260). -/
theorem chunks_overflow_pads_and_drops (cw : Char → Nat) (width i : Nat)
    (c : Char) (cs buf : List Char) (hr : cw REPLACEMENT = 1)
    (hbuf : i = strWidth cw buf) (hlt : i < width) (hover : width < i + cw c) :
    chunksGo cw width (c :: cs) buf i =
      (buf ++ List.replicate (width - i) REPLACEMENT) :: chunksGo cw width cs [] 0 ∧
    strWidth cw (buf ++ List.replicate (width - i) REPLACEMENT) = width := by
  constructor
  · simp [chunksGo, if_pos hover]
  · rw [strWidth_append, strWidth_replicate cw _ _ hr, ← hbuf]
    omega

theorem chunks_overflow_pads_and_drops_witness :
    chunksGo charWidth 3 ['😳'] ['😳'] 2 =
      (['😳'] ++ List.replicate 1 REPLACEMENT) :: chunksGo charWidth 3 [] [] 0 ∧
    strWidth charWidth (['😳'] ++ List.replicate 1 REPLACEMENT) = 3 :=
  chunks_overflow_pads_and_drops charWidth 3 2 '😳' [] ['😳'] (by decide) (by decide)
    (by decide) (by decide)

theorem splitAtPosGo_append (cw : Char → Nat) (pos : Nat) (cs : List Char) :
    ∀ w, (splitAtPosGo cw pos cs w).1 ++ (splitAtPosGo cw pos cs w).2.1 = cs := by
  induction cs with
  | nil => intro w; simp [splitAtPosGo]
  | cons c cs ih =>
      intro w
      by_cases h1 : w = pos
      · simp [splitAtPosGo, h1]
      · by_cases h2 : pos < w + cw c
        · simp [splitAtPosGo, h1, h2]
        · simp [splitAtPosGo, h1, h2, ih (w + cw c)]

theorem splitAtPosGo_bound (cw : Char → Nat) (pos : Nat) (cs : List Char) :
    ∀ w, w ≤ pos →
    w + strWidth cw (splitAtPosGo cw pos cs w).1 + (splitAtPosGo cw pos cs w).2.2.1 ≤ pos := by
  induction cs with
  | nil => intro w hw; simpa [splitAtPosGo, strWidth] using hw
  | cons c cs ih =>
      intro w hw
      by_cases h1 : w = pos
      · simp [splitAtPosGo, h1, strWidth]
      · by_cases h2 : pos < w + cw c
        · simp [splitAtPosGo, h1, h2, strWidth]
          omega
        · have := ih (w + cw c) (by omega)
          simp only [splitAtPosGo, if_neg h1, if_neg h2]
          simpa [strWidth_cons, Nat.add_assoc, Nat.add_comm, Nat.add_left_comm] using this

theorem splitAtPos_bound (cw : Char → Nat) (pos : Nat) (cs : List Char) :
    strWidth cw (splitAtPos cw pos cs).1 + (splitAtPos cw pos cs).2.2.1 ≤ pos := by
  simpa using splitAtPosGo_bound cw pos cs 0 (Nat.zero_le pos)

theorem splitAtPos_zero (cw : Char → Nat) (cs : List Char) :
    splitAtPos cw 0 cs = ([], cs, 0, false) := by
  cases cs <;> simp [splitAtPos, splitAtPosGo]

theorem skwWordLoopF_inv (cw : Char → Nat) (width : Nat) (hr : cw REPLACEMENT = 1) :
    ∀ n wp st st', skwWordLoopF cw width n wp st = some st' →
    st.lineWidth = strWidth cw st.line → st.lineWidth ≤ width →
    (∀ l ∈ st.lines, strWidth cw l = width) →
    st'.lineWidth = strWidth cw st'.line ∧ st'.lineWidth ≤ width ∧
      ∀ l ∈ st'.lines, strWidth cw l = width := by
  intro n
  induction n with
  | zero => intro wp st st' h; simp [skwWordLoopF] at h
  | succ n ih =>
      intro wp st st' h hline hle hlines
      cases wp with
      | nil =>
          simp only [skwWordLoopF, Option.some.injEq] at h
          subst h
          exact ⟨hline, hle, hlines⟩
      | cons c cs =>
          simp only [skwWordLoopF] at h
          have hb := splitAtPos_bound cw (width - st.lineWidth) (c :: cs)
          set r := splitAtPos cw (width - st.lineWidth) (c :: cs) with hrdef
          have hlw : st.lineWidth + strWidth cw r.1 + r.2.2.1 ≤ width := by omega
          have hwid : strWidth cw (st.line ++ r.1 ++ List.replicate r.2.2.1 REPLACEMENT) =
              st.lineWidth + strWidth cw r.1 + r.2.2.1 := by
            rw [strWidth_append, strWidth_append, strWidth_replicate cw _ _ hr, ← hline]
          by_cases hflush : st.lineWidth + strWidth cw r.1 + r.2.2.1 = width
          · rw [if_pos hflush] at h
            refine ih _ _ _ h rfl (Nat.zero_le width) ?_
            intro l hl
            rcases List.mem_append.mp hl with h1 | h1
            · exact hlines l h1
            · rcases List.mem_singleton.mp h1 with rfl
              rw [hwid, hflush]
          · rw [if_neg hflush] at h
            exact ih _ _ _ h hwid.symm hlw hlines

theorem skwSpace_inv (cw : Char → Nat) (width : Nat) (hsp : cw ' ' = 1) (st : SkwSt)
    (hline : st.lineWidth = strWidth cw st.line) (hle : st.lineWidth ≤ width) :
    (skwSpace width st).lineWidth = strWidth cw (skwSpace width st).line ∧
    (skwSpace width st).lineWidth ≤ width ∧ (skwSpace width st).lines = st.lines := by
  unfold skwSpace
  split
  · next hcond =>
      refine ⟨?_, ?_, rfl⟩
      · show st.lineWidth + 1 = strWidth cw (st.line ++ [' '])
        rw [strWidth_append, strWidth_cons, strWidth_nil, hsp, hline]
      · show st.lineWidth + 1 ≤ width
        omega
  · exact ⟨hline, hle, rfl⟩

theorem skwSpace_lw_le (width : Nat) (st : SkwSt) (hle : st.lineWidth ≤ width) :
    (skwSpace width st).lineWidth ≤ width := by
  unfold skwSpace
  split
  · next hcond =>
      show st.lineWidth + 1 ≤ width
      omega
  · exact hle

theorem skwStep_inv (cw : Char → Nat) (width : Nat) (hsp : cw ' ' = 1)
    (hr : cw REPLACEMENT = 1) (st : SkwSt) (word : List Char)
    (hline : st.lineWidth = strWidth cw st.line) (hle : st.lineWidth ≤ width)
    (hlines : ∀ l ∈ st.lines, strWidth cw l = width) :
    (skwStep cw width st word).lineWidth = strWidth cw (skwStep cw width st word).line ∧
    (skwStep cw width st word).lineWidth ≤ width ∧
    ∀ l ∈ (skwStep cw width st word).lines, strWidth cw l = width := by
  unfold skwStep
  set st1 := skwSpace width st with hst1
  obtain ⟨h1line, h1le, h1lines⟩ := skwSpace_inv cw width hsp st hline hle
  rw [← hst1] at h1line h1le h1lines
  simp only []
  by_cases hfit : st1.lineWidth + strWidth cw word ≤ width
  · rw [if_pos hfit]
    refine ⟨?_, by simpa using hfit, by simpa [h1lines] using hlines⟩
    simp [strWidth_append, ← h1line]
  · rw [if_neg hfit]
    by_cases hsmall : strWidth cw word ≤ width
    · rw [if_pos hsmall]
      refine ⟨rfl, hsmall, ?_⟩
      intro l hl
      simp only [List.mem_append, h1lines] at hl
      rcases hl with h | h
      · exact hlines l h
      · rcases List.mem_singleton.mp h with rfl
        rw [strWidth_append, strWidth_replicate cw _ _ hsp, ← h1line]
        omega
    · rw [if_neg hsmall]
      unfold skwWordLoop
      rcases hF : skwWordLoopF cw width (2 * word.length + 2) word st1 with _ | st'
      · simp only [hF, Option.getD_none]
        exact ⟨h1line, h1le, by simpa [h1lines] using hlines⟩
      · simp only [hF, Option.getD_some]
        exact skwWordLoopF_inv cw width hr _ word _ st' hF h1line h1le
          (by simpa [h1lines] using hlines)

theorem skwGo_inv (cw : Char → Nat) (width : Nat) (hsp : cw ' ' = 1)
    (hr : cw REPLACEMENT = 1) (ws : List (List Char)) :
    ∀ st, st.lineWidth = strWidth cw st.line → st.lineWidth ≤ width →
    (∀ l ∈ st.lines, strWidth cw l = width) →
    (skwGo cw width ws st).lineWidth = strWidth cw (skwGo cw width ws st).line ∧
    (skwGo cw width ws st).lineWidth ≤ width ∧
    ∀ l ∈ (skwGo cw width ws st).lines, strWidth cw l = width := by
  induction ws with
  | nil => intro st h1 h2 h3; exact ⟨h1, h2, h3⟩
  | cons w ws ih =>
      intro st h1 h2 h3
      obtain ⟨g1, g2, g3⟩ := skwStep_inv cw width hsp hr st w h1 h2 h3
      exact ih (skwStep cw width st w) g1 g2 g3

theorem splitKeepingWords_width_eq (cw : Char → Nat) (s : List Char) (width : Nat)
    (hsp : cw ' ' = 1) (hr : cw REPLACEMENT = 1) :
    ∀ l ∈ splitKeepingWords cw s width, strWidth cw l = width := by
  intro l hl
  unfold splitKeepingWords at hl
  obtain ⟨g1, g2, g3⟩ := skwGo_inv cw width hsp hr (splitOnChar ' ' s)
    ⟨[], [], 0, true⟩ rfl (Nat.zero_le width) (by intro l hl; simp at hl)
  set st := skwGo cw width (splitOnChar ' ' s) ⟨[], [], 0, true⟩
  by_cases hpos : 0 < st.lineWidth
  · rw [if_pos hpos] at hl
    rcases List.mem_append.mp hl with h | h
    · exact g3 l h
    · rcases List.mem_singleton.mp h with rfl
      rw [strWidth_append, strWidth_replicate cw _ _ hsp, ← g1]
      omega
  · rw [if_neg hpos] at hl
    exact g3 l hl

/-- C3 (amended): in the non-color implementation of word-preserving mode
with positive width, every produced line has rendered width exactly `width`
(`wrap.rs` lines 347-424) — the final partially-filled line and a line
abandoned on a word move are padded with spaces.  (The color
implementation deliberately does not pad an abandoned line, see the
counterexample.) -/
theorem split_keeping_words_rectangular (cw : Char → Nat) (s : List Char) (width : Nat)
    (hw : 0 < width) (hsp : cw ' ' = 1) (hr : cw REPLACEMENT = 1) :
    ∀ l ∈ splitKeepingWords cw s width, strWidth cw l = width :=
  splitKeepingWords_width_eq cw s width hsp hr

theorem split_keeping_words_rectangular_witness :
    strWidth charWidth ['1', ' ', ' '] = 3 :=
  split_keeping_words_rectangular charWidth ['1'] 3 (by decide) (by decide) (by decide)
    ['1', ' ', ' '] (by decide)

/-- C1: for every input text, every positive width and both modes, every
line produced by `wrap_text(text, width, keep_words)` has rendered width at
most `width` (`wrap.rs` lines 189-199, 234-267 and 347-424). -/
theorem wrap_text_width_le (cw : Char → Nat) (s : List Char) (width : Nat)
    (keepWords : Bool) (hw : 0 < width) (hsp : cw ' ' = 1) (hr : cw REPLACEMENT = 1) :
    ∀ l ∈ wrapTextList cw s width keepWords, strWidth cw l ≤ width := by
  intro l hl
  unfold wrapTextList at hl
  rw [if_neg (Nat.pos_iff_ne_zero.mp hw)] at hl
  cases keepWords with
  | true =>
      rw [if_pos rfl] at hl
      exact Nat.le_of_eq (splitKeepingWords_width_eq cw s width hsp hr l hl)
  | false =>
      rw [if_neg (by simp)] at hl
      exact chunks_width_le cw s width hr l hl

theorem wrap_text_width_le_witness :
    strWidth charWidth ['😳', REPLACEMENT] ≤ 3 :=
  wrap_text_width_le charWidth ['😳', '😳'] 3 false (by decide) (by decide) (by decide)
    ['😳', REPLACEMENT] (by decide)


theorem chunksGo_step_over (cw : Char → Nat) (width : Nat) (c : Char)
    (cs buf : List Char) (i : Nat) (h : width < i + cw c) :
    chunksGo cw width (c :: cs) buf i =
      (buf ++ List.replicate (width - i) REPLACEMENT) :: chunksGo cw width cs [] 0 := by
  simp [chunksGo, h]

theorem chunksGo_step_fit (cw : Char → Nat) (width : Nat) (c : Char)
    (cs buf : List Char) (i : Nat) (h1 : ¬ width < i + cw c) (h2 : i + cw c = width) :
    chunksGo cw width (c :: cs) buf i = (buf ++ [c]) :: chunksGo cw width cs [] 0 := by
  simp [chunksGo, h1, h2]

theorem chunksGo_step_push (cw : Char → Nat) (width : Nat) (c : Char)
    (cs buf : List Char) (i : Nat) (h1 : ¬ width < i + cw c) (h2 : i + cw c ≠ width) :
    chunksGo cw width (c :: cs) buf i = chunksGo cw width cs (buf ++ [c]) (i + cw c) := by
  simp [chunksGo, h1, h2]

theorem chunksShape_cons (cw : Char → Nat) (width : Nat) (l : List Char)
    (ls : List (List Char)) (hl : FullLine cw width l) (hls : ChunksShape cw width ls) :
    ChunksShape cw width (l :: ls) := by
  cases ls with
  | nil => exact Or.inl hl
  | cons l2 ls => exact ⟨hl, hls⟩

theorem fullLine_of_pad (cw : Char → Nat) (width : Nat) (hr : cw REPLACEMENT = 1)
    (buf : List Char) (i : Nat) (hbuf : i = strWidth cw buf) (hlt : i < width) :
    FullLine cw width (buf ++ List.replicate (width - i) REPLACEMENT) := by
  constructor
  · rw [strWidth_append, strWidth_replicate cw _ _ hr, ← hbuf]
    omega
  · intro k hk
    rw [List.length_append, List.length_replicate] at hk
    rw [strWidth_take_append, List.take_replicate, strWidth_replicate cw _ _ hr]
    have h1 : strWidth cw (buf.take k) ≤ i := hbuf ▸ strWidth_take_le cw k buf
    by_cases hble : buf.length ≤ k
    · rw [List.take_of_length_le hble]
      rw [List.take_of_length_le hble] at h1
      omega
    · have : k - buf.length = 0 := by omega
      simp only [this]
      omega

theorem fullLine_of_fit (cw : Char → Nat) (width : Nat) (buf : List Char) (c : Char)
    (i : Nat) (hbuf : i = strWidth cw buf) (hlt : i < width) (hfit : i + cw c = width) :
    FullLine cw width (buf ++ [c]) := by
  constructor
  · rw [strWidth_append, strWidth_cons, strWidth_nil, ← hbuf]
    omega
  · intro k hk
    rw [List.length_append, List.length_singleton] at hk
    have hkle : k ≤ buf.length := by omega
    rw [strWidth_take_append]
    have : k - buf.length = 0 := by omega
    simp only [this, List.take_zero, strWidth_nil]
    have h1 : strWidth cw (buf.take k) ≤ i := hbuf ▸ strWidth_take_le cw k buf
    omega

theorem chunksGo_shape (cw : Char → Nat) (width : Nat) (hr : cw REPLACEMENT = 1)
    (cs : List Char) : ∀ buf i, i = strWidth cw buf → i < width →
    ChunksShape cw width (chunksGo cw width cs buf i) := by
  induction cs with
  | nil =>
      intro buf i hbuf hlt
      by_cases hb : buf.isEmpty
      · simp [chunksGo, hb, ChunksShape]
      · simp only [chunksGo, if_neg hb]
        refine Or.inr ⟨?_, by simpa using hb⟩
        intro k
        calc strWidth cw (buf.take k) ≤ strWidth cw buf := strWidth_take_le cw k buf
        _ < width := hbuf ▸ hlt
  | cons c cs ih =>
      intro buf i hbuf hlt
      simp only [chunksGo]
      by_cases hover : width < i + cw c
      · rw [if_pos hover]
        exact chunksShape_cons cw width _ _ (fullLine_of_pad cw width hr buf i hbuf hlt)
          (ih [] 0 rfl (by omega))
      · rw [if_neg hover]
        by_cases hfit : i + cw c = width
        · rw [if_pos hfit]
          exact chunksShape_cons cw width _ _ (fullLine_of_fit cw width buf c i hbuf hlt hfit)
            (ih [] 0 rfl (by omega))
        · rw [if_neg hfit]
          refine ih (buf ++ [c]) (i + cw c) ?_ (by omega)
          rw [strWidth_append, strWidth_cons, strWidth_nil, ← hbuf]
          omega

theorem chunksGo_replay_full (cw : Char → Nat) (width : Nat) :
    ∀ (l r buf : List Char) (i : Nat), l ≠ [] → i + strWidth cw l = width →
    (∀ k, k < l.length → i + strWidth cw (l.take k) < width) →
    chunksGo cw width (l ++ r) buf i = (buf ++ l) :: chunksGo cw width r [] 0 := by
  intro l
  induction l with
  | nil => intro r buf i hne; exact absurd rfl hne
  | cons c l ih =>
      intro r buf i _ htot hpre
      cases l with
      | nil =>
          have hfit : i + cw c = width := by
            rw [strWidth_cons, strWidth_nil] at htot
            omega
          simp [chunksGo, hfit, Nat.lt_irrefl, show ¬ width < i + cw c by omega]
      | cons d l' =>
          have h1 : i + cw c < width := by
            have := hpre 1 (by simp)
            simpa [strWidth] using this
          rw [List.cons_append,
            chunksGo_step_push cw width c (d :: l' ++ r) buf i (by omega) (by omega)]
          rw [ih r (buf ++ [c]) (i + cw c) (by simp) ?_ ?_]
          · simp
          · rw [strWidth_cons] at htot
            omega
          · intro k hk
            have := hpre (k + 1) (by simpa using Nat.succ_lt_succ hk)
            simpa [strWidth_cons, Nat.add_assoc] using this

theorem chunksGo_replay_slack (cw : Char → Nat) (width : Nat) :
    ∀ (l buf : List Char) (i : Nat), (∀ k, i + strWidth cw (l.take k) < width) →
    chunksGo cw width l buf i = if (buf ++ l).isEmpty then [] else [buf ++ l] := by
  intro l
  induction l with
  | nil => intro buf i _; simp [chunksGo]
  | cons c l ih =>
      intro buf i hsl
      have h1 : i + cw c < width := by
        have := hsl 1
        simpa [strWidth] using this
      simp only [chunksGo, if_neg (show ¬ width < i + cw c by omega),
        if_neg (show ¬ i + cw c = width by omega)]
      rw [ih (buf ++ [c]) (i + cw c) ?_]
      · simp
      · intro k
        have := hsl (k + 1)
        simpa [strWidth_cons, Nat.add_assoc] using this

theorem fullLine_ne_nil (cw : Char → Nat) (width : Nat) (l : List Char)
    (h0 : 0 < width) (hl : FullLine cw width l) : l ≠ [] := by
  intro h
  rw [h] at hl
  exact absurd hl.1.symm (by simpa [strWidth] using Nat.pos_iff_ne_zero.mp h0)

theorem chunksGo_rewrap_tail (cw : Char → Nat) (width : Nat) (h0 : 0 < width)
    (hnl : cw '\n' = 0) :
    ∀ ls, ChunksShape cw width ls → ls ≠ [] →
    chunksGo cw width (joinSep ls) ['\n'] 0 = ls.map (fun l => '\n' :: l) := by
  intro ls
  induction ls with
  | nil => intro _ hne; exact absurd rfl hne
  | cons l ls ih =>
      intro hshape _
      cases ls with
      | nil =>
          rcases hshape with hfull | ⟨hslack, hne⟩
          · have hlne := fullLine_ne_nil cw width l h0 hfull
            have := chunksGo_replay_full cw width l [] ['\n'] 0 hlne
              (by simpa using hfull.1) (by intro k hk; simpa using hfull.2 k hk)
            simpa [joinSep, chunksGo] using this
          · have := chunksGo_replay_slack cw width l ['\n'] 0 (by simpa using hslack)
            simpa [joinSep] using this
      | cons l2 ls' =>
          obtain ⟨hfull, hshape'⟩ := hshape
          have hlne := fullLine_ne_nil cw width l h0 hfull
          show chunksGo cw width (l ++ '\n' :: joinSep (l2 :: ls')) ['\n'] 0 = _
          rw [chunksGo_replay_full cw width l ('\n' :: joinSep (l2 :: ls')) ['\n'] 0 hlne
            (by simpa using hfull.1) (by intro k hk; simpa using hfull.2 k hk)]
          rw [chunksGo_step_push cw width '\n' (joinSep (l2 :: ls')) [] 0 (by rw [hnl]; omega) (by rw [hnl]; omega)]
          simp only [List.nil_append, hnl, Nat.add_zero]
          rw [ih hshape' (by simp)]
          simp

theorem chunks_rewrap (cw : Char → Nat) (width : Nat) (h0 : 0 < width)
    (hnl : cw '\n' = 0) (L : List (List Char)) (hshape : ChunksShape cw width L) :
    chunks cw (joinSep L) width = interleave L := by
  have hw : width ≠ 0 := Nat.pos_iff_ne_zero.mp h0
  cases L with
  | nil => simp [chunks, joinSep, chunksGo, interleave, hw]
  | cons l ls =>
      cases ls with
      | nil =>
          unfold chunks
          rw [if_neg hw]
          rcases hshape with hfull | ⟨hslack, hne⟩
          · have hlne := fullLine_ne_nil cw width l h0 hfull
            have := chunksGo_replay_full cw width l [] [] 0 hlne
              (by simpa using hfull.1) (by intro k hk; simpa using hfull.2 k hk)
            simpa [joinSep, chunksGo, interleave] using this
          · have := chunksGo_replay_slack cw width l [] 0 (by simpa using hslack)
            simpa [joinSep, interleave, hne] using this
      | cons l2 ls' =>
          obtain ⟨hfull, hshape'⟩ := hshape
          have hlne := fullLine_ne_nil cw width l h0 hfull
          unfold chunks
          rw [if_neg hw]
          show chunksGo cw width (l ++ '\n' :: joinSep (l2 :: ls')) [] 0 = _
          rw [chunksGo_replay_full cw width l ('\n' :: joinSep (l2 :: ls')) [] 0 hlne
            (by simpa using hfull.1) (by intro k hk; simpa using hfull.2 k hk)]
          rw [chunksGo_step_push cw width '\n' (joinSep (l2 :: ls')) [] 0 (by rw [hnl]; omega) (by rw [hnl]; omega)]
          simp only [List.nil_append, hnl, Nat.add_zero]
          rw [chunksGo_rewrap_tail cw width h0 hnl (l2 :: ls') hshape' (by simp)]
          simp [interleave]

/-- C4 (counterexample): plain-mode wrapping is not idempotent at the same
width: re-wrapping `wrap_text("123456", 2, false) = "12\n34\n56"` yields
`"12\n\n34\n\n56"` — the joined newlines are width-0 characters that get
absorbed into the following lines, so neither the string nor its line list
is reproduced. -/
theorem wrap_text_not_idempotent :
    wrapText charWidth (wrapText charWidth ['1', '2', '3', '4', '5', '6'] 2 false) 2 false ≠
      wrapText charWidth ['1', '2', '3', '4', '5', '6'] 2 false ∧
    wrapTextList charWidth (wrapText charWidth ['1', '2', '3', '4', '5', '6'] 2 false) 2 false ≠
      wrapTextList charWidth ['1', '2', '3', '4', '5', '6'] 2 false := by
  constructor <;> decide

/-- C4 (amended): re-wrapping plain-mode output at the same positive width
does not reproduce the lines; instead each absorbed separator prepends a
newline character to every line after the first (rendering as an inserted
empty line at each existing break), and nothing else changes
(`wrap.rs` lines 189-199 and 234-267).  Idempotence holds exactly when the
first wrap has at most one line. -/
theorem wrap_text_rewrap_interleaves (cw : Char → Nat) (s : List Char) (width : Nat)
    (h0 : 0 < width) (hnl : cw '\n' = 0) (hr : cw REPLACEMENT = 1) :
    wrapTextList cw (wrapText cw s width false) width false =
      interleave (wrapTextList cw s width false) := by
  have hw : width ≠ 0 := Nat.pos_iff_ne_zero.mp h0
  have hlist : wrapTextList cw s width false = chunks cw s width := by
    simp [wrapTextList, hw]
  rw [wrapText, hlist]
  have : wrapTextList cw (joinSep (chunks cw s width)) width false =
      chunks cw (joinSep (chunks cw s width)) width := by
    simp [wrapTextList, hw]
  rw [this]
  refine chunks_rewrap cw width h0 hnl _ ?_
  unfold chunks
  rw [if_neg hw]
  exact chunksGo_shape cw width hr s [] 0 rfl h0

theorem wrap_text_rewrap_interleaves_witness :
    wrapTextList charWidth (wrapText charWidth ['1', '2', '3', '4', '5', '6'] 2 false) 2 false =
      interleave (wrapTextList charWidth ['1', '2', '3', '4', '5', '6'] 2 false) :=
  wrap_text_rewrap_interleaves charWidth ['1', '2', '3', '4', '5', '6'] 2 (by decide)
    (by decide) (by decide)

/-- C5: for every input text and both modes, `wrap_text(text, 0, keep_words)`
returns the empty string (`wrap.rs` lines 189-199). -/
theorem wrap_text_zero_width (cw : Char → Nat) (s : List Char) (keepWords : Bool) :
    wrapText cw s 0 keepWords = [] := by
  simp [wrapText, wrapTextList, joinSep]

theorem getD_set_self (l : List Nat) : ∀ i v, i < l.length → (l.set i v).getD i 0 = v := by
  induction l with
  | nil => intro i v h; simp at h
  | cons x l ih =>
      intro i v h
      cases i with
      | zero => rfl
      | succ i => simpa using ih i v (by simpa using h)

theorem getD_set_ne (l : List Nat) : ∀ i j v, j ≠ i → (l.set i v).getD j 0 = l.getD j 0 := by
  induction l with
  | nil => intro i j v _; simp
  | cons x l ih =>
      intro i j v hne
      cases i with
      | zero =>
          cases j with
          | zero => exact absurd rfl hne
          | succ j => simp
      | succ i =>
          cases j with
          | zero => rfl
          | succ j => simpa using ih i j v (by omega)

theorem sum_set_getD (l : List Nat) : ∀ i v, i < l.length →
    (l.set i v).sum + l.getD i 0 = l.sum + v := by
  induction l with
  | nil => intro i v h; simp at h
  | cons x l ih =>
      intro i v h
      cases i with
      | zero => simp [Nat.add_comm, Nat.add_assoc, Nat.add_left_comm]
      | succ i =>
          have := ih i v (by simpa using h)
          simp only [List.set, List.sum_cons, List.getD_cons_succ]
          omega

theorem sum_le_ptwise : ∀ (ms ws : List Nat), ms.length = ws.length →
    (∀ i, ms.getD i 0 ≤ ws.getD i 0) → ms.sum ≤ ws.sum := by
  intro ms
  induction ms with
  | nil =>
      intro ws h _
      cases ws with
      | nil => exact Nat.le_refl 0
      | cons w ws => simp at h
  | cons m ms ih =>
      intro ws h hp
      cases ws with
      | nil => simp at h
      | cons w ws =>
          have h0 : m ≤ w := by simpa using hp 0
          have hrest : ms.sum ≤ ws.sum :=
            ih ws (by simpa using h) (fun i => by simpa using hp (i + 1))
          simp only [List.sum_cons]
          omega

theorem sum_eq_ptwise : ∀ (ms ws : List Nat), ms.length = ws.length →
    (∀ i, i < ws.length → ms.getD i 0 = ws.getD i 0) → ms.sum = ws.sum := by
  intro ms
  induction ms with
  | nil =>
      intro ws h _
      cases ws with
      | nil => rfl
      | cons w ws => simp at h
  | cons m ms ih =>
      intro ws h hp
      cases ws with
      | nil => simp at h
      | cons w ws =>
          have h0 : m = w := by simpa using hp 0 (by simp)
          have hrest : ms.sum = ws.sum :=
            ih ws (by simpa using h)
              (fun i hi => by simpa using hp (i + 1) (by simpa using Nat.succ_lt_succ hi))
          simp [h0, hrest]

theorem foldl_pickStep_mem (better : Nat → Nat → Bool) :
    ∀ (l : List Nat) (acc : Option Nat) (r : Nat),
    l.foldl (pickStep better) acc = some r → r ∈ l ∨ acc = some r := by
  intro l
  induction l with
  | nil => intro acc r h; exact Or.inr h
  | cons x l ih =>
      intro acc r h
      rcases ih (pickStep better acc x) r h with hm | he
      · exact Or.inl (List.mem_cons_of_mem x hm)
      · cases acc with
        | none =>
            simp only [pickStep, Option.some.injEq] at he
            exact Or.inl (he ▸ List.mem_cons_self x l)
        | some j =>
            simp only [pickStep] at he
            by_cases hb : better x j
            · rw [if_pos hb] at he
              exact Or.inl ((Option.some.injEq _ _ ▸ he) ▸ List.mem_cons_self x l)
            · rw [if_neg hb] at he
              exact Or.inr he

theorem foldl_pickStep_ne_none (better : Nat → Nat → Bool) :
    ∀ (l : List Nat) (acc : Option Nat), l.foldl (pickStep better) acc = none →
    acc = none ∧ l = [] := by
  intro l
  induction l with
  | nil => intro acc h; exact ⟨h, rfl⟩
  | cons x l ih =>
      intro acc h
      obtain ⟨h1, _⟩ := ih (pickStep better acc x) h
      cases acc with
      | none => simp [pickStep] at h1
      | some j =>
          simp only [pickStep] at h1
          by_cases hb : better x j <;> simp [hb] at h1

theorem pickBest_eligible (better : Nat → Nat → Bool) (ws ms : List Nat) (i : Nat)
    (h : pickBest better ws ms = some i) :
    eligible ws ms i = true ∧ i < ws.length := by
  rcases foldl_pickStep_mem better _ none i h with hm | he
  · rw [List.mem_filter] at hm
    exact ⟨hm.2, List.mem_range.mp hm.1⟩
  · simp at he

theorem pickBest_none (better : Nat → Nat → Bool) (ws ms : List Nat)
    (h : pickBest better ws ms = none) :
    ∀ i, i < ws.length → eligible ws ms i = false := by
  intro i hi
  obtain ⟨_, hfil⟩ := foldl_pickStep_ne_none better _ none h
  by_contra hne
  have : i ∈ (List.range ws.length).filter (eligible ws ms) :=
    List.mem_filter.mpr ⟨List.mem_range.mpr hi, by simpa using hne⟩
  rw [hfil] at this
  simp at this

theorem peek_some_eligible (p : Peaker) (ms ws : List Nat) (i : Nat) (p' : Peaker)
    (h : peek p ms ws = some (i, p')) :
    ms.getD i 0 < ws.getD i 0 ∧ i < ws.length := by
  cases p with
  | priorityNone next =>
      simp only [peek] at h
      rcases h1 : (List.range ws.length).find? (fun i => decide (next ≤ i) && eligible ws ms i)
        with _ | j
      · rw [h1] at h
        rcases h2 : (List.range ws.length).find? (eligible ws ms) with _ | j
        · rw [h2] at h; simp at h
        · rw [h2] at h
          simp only [Option.some.injEq, Prod.mk.injEq] at h
          obtain ⟨rfl, _⟩ := h
          have he := List.find?_some h2
          have hm := List.mem_range.mp (List.mem_of_find?_eq_some h2)
          exact ⟨by simpa [eligible] using he, hm⟩
      · rw [h1] at h
        simp only [Option.some.injEq, Prod.mk.injEq] at h
        obtain ⟨rfl, _⟩ := h
        have he := List.find?_some h1
        have hm := List.mem_range.mp (List.mem_of_find?_eq_some h1)
        rw [Bool.and_eq_true] at he
        exact ⟨by simpa [eligible] using he.2, hm⟩
  | priorityMax =>
      simp only [peek] at h
      rcases h1 : pickBest (fun a b => decide (ws.getD b 0 < ws.getD a 0)) ws ms with _ | j
      · rw [h1] at h; simp at h
      · rw [h1] at h
        simp only [Option.some.injEq, Prod.mk.injEq] at h
        obtain ⟨rfl, _⟩ := h
        obtain ⟨he, hm⟩ := pickBest_eligible _ ws ms j h1
        exact ⟨by simpa [eligible] using he, hm⟩
  | priorityMin =>
      simp only [peek] at h
      rcases h1 : pickBest (fun a b => decide (ws.getD a 0 < ws.getD b 0)) ws ms with _ | j
      · rw [h1] at h; simp at h
      · rw [h1] at h
        simp only [Option.some.injEq, Prod.mk.injEq] at h
        obtain ⟨rfl, _⟩ := h
        obtain ⟨he, hm⟩ := pickBest_eligible _ ws ms j h1
        exact ⟨by simpa [eligible] using he, hm⟩

theorem peek_none_at_minimum (p : Peaker) (ms ws : List Nat)
    (h : peek p ms ws = none) :
    ∀ i, i < ws.length → ¬ ms.getD i 0 < ws.getD i 0 := by
  intro i hi
  cases p with
  | priorityNone next =>
      simp only [peek] at h
      rcases h1 : (List.range ws.length).find? (fun i => decide (next ≤ i) && eligible ws ms i)
        with _ | j
      · rw [h1] at h
        rcases h2 : (List.range ws.length).find? (eligible ws ms) with _ | j
        · have := List.find?_eq_none.mp h2 i (List.mem_range.mpr hi)
          simpa [eligible] using this
        · rw [h2] at h; simp at h
      · rw [h1] at h; simp at h
  | priorityMax =>
      simp only [peek] at h
      rcases h1 : pickBest (fun a b => decide (ws.getD b 0 < ws.getD a 0)) ws ms with _ | j
      · have := pickBest_none _ ws ms h1 i hi
        simpa [eligible] using this
      · rw [h1] at h; simp at h
  | priorityMin =>
      simp only [peek] at h
      rcases h1 : pickBest (fun a b => decide (ws.getD a 0 < ws.getD b 0)) ws ms with _ | j
      · have := pickBest_none _ ws ms h1 i hi
        simpa [eligible] using this
      · rw [h1] at h; simp at h

theorem decreaseWidthsGo_floor (ms : List Nat) :
    ∀ (n : Nat) (ws : List Nat) (p : Peaker), (∀ i, ms.getD i 0 ≤ ws.getD i 0) →
    ∀ j, ms.getD j 0 ≤ (decreaseWidthsGo ms n ws p).getD j 0 := by
  intro n
  induction n with
  | zero => intro ws p h j; exact h j
  | succ n ih =>
      intro ws p h j
      simp only [decreaseWidthsGo]
      rcases hpk : peek p ms ws with _ | ⟨i, p'⟩
      · exact h j
      · obtain ⟨helig, hlt⟩ := peek_some_eligible p ms ws i p' hpk
        refine ih (ws.set i (ws.getD i 0 - 1)) p' ?_ j
        intro k
        by_cases hk : k = i
        · subst hk
          rw [getD_set_self ws k _ hlt]
          omega
        · rw [getD_set_ne ws i k _ hk]
          exact h k

/-- C7: after `decrease_widths` completes, every column's allocated width
is at least that column's minimum content width, under every priority
policy (spec sections 4.1-4.2, used by `wrap_total_width`, `wrap.rs` lines
169-173). -/
theorem decrease_widths_floor (ws ms : List Nat) (total target : Nat) (p : Peaker)
    (h : ∀ i, ms.getD i 0 ≤ ws.getD i 0) :
    ∀ j, ms.getD j 0 ≤ (decreaseWidths ws ms total target p).getD j 0 :=
  decreaseWidthsGo_floor ms (total - target) ws p h

theorem decrease_widths_floor_witness :
    ([2, 2, 2] : List Nat).getD 0 0 ≤
      (decreaseWidths [10, 10, 10] [2, 2, 2] 30 15 Peaker.priorityMax).getD 0 0 :=
  decrease_widths_floor [10, 10, 10] [2, 2, 2] 30 15 Peaker.priorityMax
    (by intro i; rcases i with _ | _ | _ | i <;> simp [List.getD]) 0

theorem length_decreaseWidthsGo (ms : List Nat) :
    ∀ (n : Nat) (ws : List Nat) (p : Peaker),
    (decreaseWidthsGo ms n ws p).length = ws.length := by
  intro n
  induction n with
  | zero => intro ws p; rfl
  | succ n ih =>
      intro ws p
      simp only [decreaseWidthsGo]
      rcases hpk : peek p ms ws with _ | ⟨i, p'⟩
      · rfl
      · rw [ih (ws.set i (ws.getD i 0 - 1)) p']
        exact List.length_set ws i _

theorem decreaseWidthsGo_sum (ms : List Nat) :
    ∀ (n : Nat) (ws : List Nat) (p : Peaker), ms.length = ws.length →
    (∀ i, ms.getD i 0 ≤ ws.getD i 0) →
    (decreaseWidthsGo ms n ws p).sum = max (ws.sum - n) ms.sum := by
  intro n
  induction n with
  | zero =>
      intro ws p hlen h
      have := sum_le_ptwise ms ws hlen h
      simp only [decreaseWidthsGo, Nat.sub_zero]
      omega
  | succ n ih =>
      intro ws p hlen h
      simp only [decreaseWidthsGo]
      rcases hpk : peek p ms ws with _ | ⟨i, p'⟩
      · have hmin := peek_none_at_minimum p ms ws hpk
        have hsum : ms.sum = ws.sum := by
          refine sum_eq_ptwise ms ws hlen (fun i hi => ?_)
          have h1 := h i
          have h2 := hmin i hi
          omega
        show ws.sum = max (ws.sum - (n + 1)) ms.sum
        omega
      · obtain ⟨helig, hlt⟩ := peek_some_eligible p ms ws i p' hpk
        have hset := sum_set_getD ws i (ws.getD i 0 - 1) hlt
        have hsum : (ws.set i (ws.getD i 0 - 1)).sum = ws.sum - 1 := by omega
        have hrec := ih (ws.set i (ws.getD i 0 - 1)) p'
          (by rw [List.length_set]; exact hlen)
          (fun k => by
            by_cases hk : k = i
            · subst hk
              rw [getD_set_self ws k _ hlt]
              have := h k
              omega
            · rw [getD_set_ne ws i k _ hk]
              exact h k)
        rw [hrec, hsum]
        have hsle : ms.sum ≤ ws.sum := sum_le_ptwise ms ws hlen h
        omega

/-- C8: when `decrease_widths` runs with `target < sum(widths)`, the
resulting widths sum to `max(target, sum(minimums))` — the target is met
exactly when reachable, otherwise the widths settle at the minimums
(spec section 4.1, used by `wrap_total_width`, `wrap.rs` lines 169-173). -/
theorem decrease_widths_conservation (ws ms : List Nat) (target : Nat) (p : Peaker)
    (hlen : ms.length = ws.length) (h : ∀ i, ms.getD i 0 ≤ ws.getD i 0)
    (htgt : target < ws.sum) :
    (decreaseWidths ws ms ws.sum target p).sum = max target ms.sum := by
  unfold decreaseWidths
  rw [decreaseWidthsGo_sum ms (ws.sum - target) ws p hlen h]
  have : ws.sum - (ws.sum - target) = target := by omega
  rw [this]

theorem decrease_widths_conservation_witness :
    (decreaseWidths [10, 10, 10] [2, 2, 2] ([10, 10, 10] : List Nat).sum 15
      Peaker.priorityMax).sum = max 15 ([2, 2, 2] : List Nat).sum :=
  decrease_widths_conservation [10, 10, 10] [2, 2, 2] 15 Peaker.priorityMax (by decide)
    (by intro i; rcases i with _ | _ | _ | i <;> simp [List.getD]) (by decide)

theorem changeCellAt_skip (cw : Char → Nat) (tabWidth width : Nat) (keepWords : Bool)
    (t : GridTable) (p pos : Nat × Nat) (h : cellWidth cw t pos ≤ width) :
    getText (changeCellAt cw tabWidth width keepWords t p) pos = getText t pos := by
  unfold changeCellAt
  by_cases hp : cellWidth cw t p ≤ width
  · rw [if_pos hp]
  · rw [if_neg hp]
    have hne : pos ≠ p := by
      intro he
      rw [he] at h
      exact hp h
    simp [getText, setText, hne]

theorem changeCell_skip (cw : Char → Nat) (tabWidth width : Nat) (keepWords : Bool) :
    ∀ (ps : List (Nat × Nat)) (t : GridTable) (pos : Nat × Nat),
    cellWidth cw t pos ≤ width →
    getText (changeCell cw tabWidth width keepWords ps t) pos = getText t pos := by
  intro ps
  induction ps with
  | nil => intro t pos _; rfl
  | cons p ps ih =>
      intro t pos h
      show getText (changeCell cw tabWidth width keepWords ps
        (changeCellAt cw tabWidth width keepWords t p)) pos = getText t pos
      have h1 := changeCellAt_skip cw tabWidth width keepWords t p pos h
      have h2 : cellWidth cw (changeCellAt cw tabWidth width keepWords t p) pos ≤ width := by
        unfold cellWidth
        rw [h1]
        exact h
      rw [ih _ pos h2, h1]

/-- C6: `Wrap::change_cell` skips a cell whose current rendered width is
already at most the target — its text is unchanged no matter which other
cells the entity rewrites (`wrap.rs` lines 104-109) — and `Wrap::change`
on a table whose total width is already at most the target leaves the
whole table untouched (`wrap.rs` lines 140-156). -/
theorem wrap_skips_fitting_cells (cw : Char → Nat) (tabWidth width : Nat)
    (keepWords : Bool) (t : GridTable) (pos : Nat × Nat) (pk : Peaker) :
    (cellWidth cw t pos ≤ width → ∀ ps,
      getText (changeCell cw tabWidth width keepWords ps t) pos = getText t pos) ∧
    (totalWidth cw t ≤ width → wrapChange cw tabWidth width keepWords pk t = t) := by
  constructor
  · intro h ps
    exact changeCell_skip cw tabWidth width keepWords ps t pos h
  · intro h
    unfold wrapChange
    by_cases he : t.rows = 0 ∨ t.cols = 0
    · rw [if_pos he]
    · rw [if_neg he, if_pos h]


theorem wrap_skips_fitting_cells_witness :
    getText (changeCell charWidth 4 5 false [(0, 0)] tableEx) (0, 0) = getText tableEx (0, 0) ∧
    wrapChange charWidth 4 5 false (Peaker.priorityNone 0) tableEx = tableEx :=
  ⟨(wrap_skips_fitting_cells charWidth 4 5 false tableEx (0, 0) (Peaker.priorityNone 0)).1
      (by decide) [(0, 0)],
    (wrap_skips_fitting_cells charWidth 4 5 false tableEx (0, 0) (Peaker.priorityNone 0)).2
      (by decide)⟩


/-- C3 (counterexample): the color-feature `split_keeping_words` gives
`"Hello World"` at width 7 the value `"Hello \nWorld  "` (its own unit test
asserts this, modulo escape sequences): the first line renders at 6
columns, not 7, because a line abandoned when a word moves to a fresh line
is not padded (`wrap.rs` lines 505-510).  So in word-preserving mode with
positive width and non-empty output, not every line has rendered width
exactly `width`. -/
theorem split_keeping_words_color_not_rectangular :
    splitKeepingWordsColor charWidth
        ['H', 'e', 'l', 'l', 'o', ' ', 'W', 'o', 'r', 'l', 'd'] 7 =
      ['H', 'e', 'l', 'l', 'o', ' ', '\n', 'W', 'o', 'r', 'l', 'd', ' ', ' '] ∧
    ¬ ∀ l ∈ splitOnChar '\n' (splitKeepingWordsColor charWidth
        ['H', 'e', 'l', 'l', 'o', ' ', 'W', 'o', 'r', 'l', 'd'] 7),
      strWidth charWidth l = 7 := by
  constructor
  · decide
  · decide

theorem splitAtPos_progress (cw : Char → Nat) (pos : Nat) (c : Char) (cs : List Char)
    (hpos : 0 < pos) :
    (splitAtPos cw pos (c :: cs)).1 ≠ [] ∨ (splitAtPos cw pos (c :: cs)).2.2.2 = true := by
  simp only [splitAtPos, splitAtPosGo]
  rw [if_neg (by omega : ¬ (0 : Nat) = pos)]
  by_cases h2 : pos < 0 + cw c
  · rw [if_pos h2]
    exact Or.inr rfl
  · rw [if_neg h2]
    exact Or.inl (by simp)

theorem splitAtPos_rest_length (cw : Char → Nat) (pos : Nat) (c : Char) (cs : List Char)
    (hpos : 0 < pos) :
    (if (splitAtPos cw pos (c :: cs)).2.2.2 then (splitAtPos cw pos (c :: cs)).2.1.tail
      else (splitAtPos cw pos (c :: cs)).2.1).length < (c :: cs).length := by
  have happ : (splitAtPos cw pos (c :: cs)).1 ++ (splitAtPos cw pos (c :: cs)).2.1 = c :: cs :=
    splitAtPosGo_append cw pos (c :: cs) 0
  have hlen : (splitAtPos cw pos (c :: cs)).1.length + (splitAtPos cw pos (c :: cs)).2.1.length
      = cs.length + 1 := by
    rw [← List.length_append, happ, List.length_cons]
  have htail : (splitAtPos cw pos (c :: cs)).2.1.tail.length
      = (splitAtPos cw pos (c :: cs)).2.1.length - 1 := List.length_tail _
  rcases splitAtPos_progress cw pos c cs hpos with h | h
  · have h1 : 0 < (splitAtPos cw pos (c :: cs)).1.length := List.length_pos.mpr h
    by_cases hd : (splitAtPos cw pos (c :: cs)).2.2.2
    · rw [if_pos hd]
      simp only [List.length_cons]
      omega
    · rw [if_neg hd]
      simp only [List.length_cons]
      omega
  · rw [if_pos h]
    simp only [List.length_cons]
    omega

theorem skwWordLoopF_lw_le (cw : Char → Nat) (width : Nat) :
    ∀ (n : Nat) (wp : List Char) (st st' : SkwSt),
    skwWordLoopF cw width n wp st = some st' → st.lineWidth ≤ width →
    st'.lineWidth ≤ width := by
  intro n
  induction n with
  | zero => intro wp st st' h; simp [skwWordLoopF] at h
  | succ n ih =>
      intro wp st st' h hle
      cases wp with
      | nil =>
          simp only [skwWordLoopF, Option.some.injEq] at h
          rw [← h]
          exact hle
      | cons c cs =>
          simp only [skwWordLoopF] at h
          have hb := splitAtPos_bound cw (width - st.lineWidth) (c :: cs)
          set r := splitAtPos cw (width - st.lineWidth) (c :: cs) with hrdef
          by_cases hflush : st.lineWidth + strWidth cw r.1 + r.2.2.1 = width
          · rw [if_pos hflush] at h
            exact ih _ _ _ h (Nat.zero_le width)
          · rw [if_neg hflush] at h
            refine ih _ _ _ h ?_
            show st.lineWidth + strWidth cw r.1 + r.2.2.1 ≤ width
            omega

theorem skwWordLoopF_mono (cw : Char → Nat) (width : Nat) :
    ∀ (n : Nat) (wp : List Char) (st st' : SkwSt) (m : Nat),
    skwWordLoopF cw width n wp st = some st' → n ≤ m →
    skwWordLoopF cw width m wp st = some st' := by
  intro n
  induction n with
  | zero => intro wp st st' m h; simp [skwWordLoopF] at h
  | succ n ih =>
      intro wp st st' m h hm
      cases m with
      | zero => omega
      | succ m =>
          cases wp with
          | nil =>
              simp only [skwWordLoopF] at h ⊢
              exact h
          | cons c cs =>
              simp only [skwWordLoopF] at h ⊢
              set r := splitAtPos cw (width - st.lineWidth) (c :: cs) with hrdef
              by_cases hflush : st.lineWidth + strWidth cw r.1 + r.2.2.1 = width
              · rw [if_pos hflush] at h ⊢
                exact ih _ _ _ m h (by omega)
              · rw [if_neg hflush] at h ⊢
                exact ih _ _ _ m h (by omega)

theorem skwWordLoopF_total (cw : Char → Nat) (width : Nat) (h0 : 0 < width) :
    ∀ (n : Nat) (wp : List Char) (st : SkwSt), st.lineWidth ≤ width →
    skwMeasure width wp st.lineWidth ≤ n → (skwWordLoopF cw width n wp st).isSome := by
  intro n
  induction n with
  | zero =>
      intro wp st _ hm
      unfold skwMeasure at hm
      by_cases hlw : st.lineWidth < width <;> simp [hlw] at hm
  | succ n ih =>
      intro wp st hle hm
      cases wp with
      | nil => simp [skwWordLoopF]
      | cons c cs =>
          unfold skwMeasure at hm
          by_cases hlw : st.lineWidth < width
          · rw [if_pos hlw] at hm
            simp only [List.length_cons] at hm
            have hb := splitAtPos_bound cw (width - st.lineWidth) (c :: cs)
            have hrest := splitAtPos_rest_length cw (width - st.lineWidth) c cs (by omega)
            simp only [skwWordLoopF]
            set r := splitAtPos cw (width - st.lineWidth) (c :: cs) with hrdef
            by_cases hflush : st.lineWidth + strWidth cw r.1 + r.2.2.1 = width
            · rw [if_pos hflush]
              refine ih _ _ (Nat.zero_le width) ?_
              show skwMeasure width (if r.2.2.2 then r.2.1.tail else r.2.1) 0 ≤ n
              unfold skwMeasure
              rw [if_pos h0]
              simp only [List.length_cons] at hrest
              omega
            · rw [if_neg hflush]
              refine ih _ _ ?_ ?_
              · show st.lineWidth + strWidth cw r.1 + r.2.2.1 ≤ width
                omega
              show skwMeasure width (if r.2.2.2 then r.2.1.tail else r.2.1)
                (st.lineWidth + strWidth cw r.1 + r.2.2.1) ≤ n
              unfold skwMeasure
              simp only [List.length_cons] at hrest
              by_cases hlw2 : st.lineWidth + strWidth cw r.1 + r.2.2.1 < width <;>
                simp only [if_pos, if_neg, hlw2, if_true, if_false] <;> omega
          · rw [if_neg hlw] at hm
            have hlweq : st.lineWidth = width := by omega
            have hz : splitAtPos cw (width - st.lineWidth) (c :: cs) = ([], c :: cs, 0, false) := by
              rw [hlweq, Nat.sub_self]
              exact splitAtPos_zero cw (c :: cs)
            simp only [skwWordLoopF, hz]
            have hflush : st.lineWidth + strWidth cw ([] : List Char) + 0 = width := by
              rw [strWidth_nil]
              omega
            rw [if_pos hflush]
            refine ih _ _ (Nat.zero_le width) ?_
            show skwMeasure width (c :: cs) 0 ≤ n
            unfold skwMeasure
            rw [if_pos h0]
            simp only [List.length_cons] at hm ⊢
            omega

theorem skwStepF_eq (cw : Char → Nat) (width : Nat) (h0 : 0 < width) (st : SkwSt)
    (word : List Char) (hle : st.lineWidth ≤ width) :
    skwStepF cw width (2 * word.length + 2) st word = some (skwStep cw width st word) := by
  have hle1 := skwSpace_lw_le width st hle
  simp only [skwStepF, skwStep]
  by_cases h1 : (skwSpace width st).lineWidth + strWidth cw word ≤ width
  · rw [if_pos h1, if_pos h1]
  · rw [if_neg h1, if_neg h1]
    by_cases h2 : strWidth cw word ≤ width
    · rw [if_pos h2, if_pos h2]
    · rw [if_neg h2, if_neg h2]
      have htot := skwWordLoopF_total cw width h0 (2 * word.length + 2) word
        (skwSpace width st) hle1 (by unfold skwMeasure; split <;> omega)
      rcases hF : skwWordLoopF cw width (2 * word.length + 2) word (skwSpace width st)
        with _ | st'
      · rw [hF] at htot
        simp at htot
      · simp [skwWordLoop, hF]

theorem skwStepF_mono (cw : Char → Nat) (width : Nat) (st st' : SkwSt) (word : List Char)
    (n m : Nat) (h : skwStepF cw width n st word = some st') (hm : n ≤ m) :
    skwStepF cw width m st word = some st' := by
  simp only [skwStepF] at h ⊢
  by_cases h1 : (skwSpace width st).lineWidth + strWidth cw word ≤ width
  · rw [if_pos h1] at h ⊢
    exact h
  · rw [if_neg h1] at h ⊢
    by_cases h2 : strWidth cw word ≤ width
    · rw [if_pos h2] at h ⊢
      exact h
    · rw [if_neg h2] at h ⊢
      exact skwWordLoopF_mono cw width n word _ st' m h hm

theorem skwStep_lw_le (cw : Char → Nat) (width : Nat) (st : SkwSt) (word : List Char)
    (hle : st.lineWidth ≤ width) : (skwStep cw width st word).lineWidth ≤ width := by
  have hle1 := skwSpace_lw_le width st hle
  simp only [skwStep]
  by_cases h1 : (skwSpace width st).lineWidth + strWidth cw word ≤ width
  · rw [if_pos h1]
    exact h1
  · rw [if_neg h1]
    by_cases h2 : strWidth cw word ≤ width
    · rw [if_pos h2]
      exact h2
    · rw [if_neg h2]
      unfold skwWordLoop
      rcases hF : skwWordLoopF cw width (2 * word.length + 2) word (skwSpace width st)
        with _ | st'
      · rw [Option.getD_none]
        exact hle1
      · rw [Option.getD_some]
        exact skwWordLoopF_lw_le cw width _ word _ st' hF hle1

theorem skwGoF_mono (cw : Char → Nat) (width : Nat) :
    ∀ (ws : List (List Char)) (st st' : SkwSt) (n m : Nat),
    skwGoF cw width n ws st = some st' → n ≤ m → skwGoF cw width m ws st = some st' := by
  intro ws
  induction ws with
  | nil => intro st st' n m h _; exact h
  | cons w ws ih =>
      intro st st' n m h hm
      simp only [skwGoF] at h ⊢
      rcases hstep : skwStepF cw width n st w with _ | st1
      · rw [hstep] at h
        simp at h
      · rw [hstep] at h
        rw [skwStepF_mono cw width st st1 w n m hstep hm]
        exact ih st1 st' n m h hm

theorem skwGoF_eq (cw : Char → Nat) (width : Nat) (h0 : 0 < width) :
    ∀ (ws : List (List Char)) (st : SkwSt), st.lineWidth ≤ width →
    ∃ n, skwGoF cw width n ws st = some (skwGo cw width ws st) := by
  intro ws
  induction ws with
  | nil => intro st _; exact ⟨0, rfl⟩
  | cons w ws ih =>
      intro st hle
      obtain ⟨n2, hn2⟩ := ih (skwStep cw width st w) (skwStep_lw_le cw width st w hle)
      refine ⟨max (2 * w.length + 2) n2, ?_⟩
      have hstep := skwStepF_mono cw width st (skwStep cw width st w) w _ _
        (skwStepF_eq cw width h0 st w hle) (Nat.le_max_left _ n2)
      have hgo := skwGoF_mono cw width ws (skwStep cw width st w) _ n2 _ hn2
        (Nat.le_max_right (2 * w.length + 2) n2)
      simp only [skwGoF]
      rw [hstep]
      exact hgo

theorem chunksColorLoopF_total (cw : Char → Nat) (width : Nat) (h0 : 0 < width) :
    ∀ (n : Nat) (part : List Char) (list : List (List Char)) (line : List Char) (lw : Nat),
    lw ≤ width → skwMeasure width part lw ≤ n →
    (chunksColorLoopF cw width n part list line lw).isSome := by
  intro n
  induction n with
  | zero =>
      intro part list line lw _ hm
      unfold skwMeasure at hm
      by_cases hlw : lw < width <;> simp [hlw] at hm
  | succ n ih =>
      intro part list line lw hle hm
      cases part with
      | nil => simp [chunksColorLoopF]
      | cons c cs =>
          simp only [chunksColorLoopF]
          by_cases hpw : strWidth cw (c :: cs) ≤ width - lw
          · rw [if_pos hpw]
            by_cases hz : width - lw = 0 <;> simp [hz]
          · rw [if_neg hpw]
            unfold skwMeasure at hm
            by_cases hlw : lw < width
            · rw [if_pos hlw] at hm
              simp only [List.length_cons] at hm
              have hb := splitAtPos_bound cw (width - lw) (c :: cs)
              have hrest := splitAtPos_rest_length cw (width - lw) c cs (by omega)
              set r := splitAtPos cw (width - lw) (c :: cs) with hrdef
              by_cases hflush : lw + strWidth cw r.1 + r.2.2.1 = width
              · rw [if_pos hflush]
                refine ih _ _ _ _ (Nat.zero_le width) ?_
                unfold skwMeasure
                rw [if_pos h0]
                simp only [List.length_cons] at hrest
                omega
              · rw [if_neg hflush]
                refine ih _ _ _ _ (by omega) ?_
                unfold skwMeasure
                simp only [List.length_cons] at hrest
                by_cases hlw2 : lw + strWidth cw r.1 + r.2.2.1 < width <;>
                  simp only [if_pos, if_neg, hlw2, if_true, if_false] <;> omega
            · rw [if_neg hlw] at hm
              simp only [List.length_cons] at hm
              have hlweq : lw = width := by omega
              have hz : splitAtPos cw (width - lw) (c :: cs) = ([], c :: cs, 0, false) := by
                rw [hlweq, Nat.sub_self]
                exact splitAtPos_zero cw (c :: cs)
              simp only [hz]
              have hflush : lw + strWidth cw ([] : List Char) + 0 = width := by
                rw [strWidth_nil]
                omega
              rw [if_pos hflush]
              refine ih _ _ _ _ (Nat.zero_le width) ?_
              show skwMeasure width (c :: cs) 0 ≤ n
              unfold skwMeasure
              rw [if_pos h0]
              simp only [List.length_cons]
              omega

theorem chunksColorF_total (cw : Char → Nat) (width : Nat) (s : List Char) :
    (chunksColorF cw width (2 * s.length + 2) s).isSome := by
  unfold chunksColorF
  by_cases hw : width = 0
  · simp [hw]
  · rw [if_neg hw]
    by_cases hs : s.isEmpty
    · simp [hs]
    · rw [if_neg (by simp [hs])]
      have htot := chunksColorLoopF_total cw width (Nat.pos_of_ne_zero hw)
        (2 * s.length + 2) s [] [] 0 (Nat.zero_le width)
        (by unfold skwMeasure; rw [if_pos (Nat.pos_of_ne_zero hw)]; omega)
      rcases hv : chunksColorLoopF cw width (2 * s.length + 2) s [] [] 0 with _ | ⟨list, line, lw⟩
      · rw [hv] at htot
        simp at htot
      · simp

/-- C9: every call of `wrap_text` terminates for every input text, width and
mode, in both the non-color and the color build: the fuel-indexed faithful
images of the Rust loops — `wrapTextF` for the non-color `wrap_text`
(lines 189-199), whose inner word-splitting loop (lines 392-415) runs
unboundedly, and `wrapTextColorF` for the color `wrap_text` (lines
202-217) on styling-free text, whose `chunks` while-loop (lines 291-332)
runs unboundedly — finish within some finite fuel, producing exactly
`wrapText` and `wrapTextColor`.  Both loops make progress even when the
remaining capacity of the current line is zero: `split_at_pos` then cuts
nothing and the full line is flushed, restoring capacity. -/
theorem wrap_text_terminates (cw : Char → Nat) (s : List Char) (width : Nat)
    (keepWords : Bool) :
    (∃ n, wrapTextF cw n s width keepWords = some (wrapText cw s width keepWords)) ∧
    (∃ n, wrapTextColorF cw n s width keepWords =
      some (wrapTextColor cw s width keepWords)) := by
  constructor
  · by_cases hw : width = 0
    · refine ⟨0, ?_⟩
      subst hw
      simp [wrapTextF, wrapText, wrapTextList, joinSep]
    · cases keepWords with
      | false =>
          refine ⟨0, ?_⟩
          simp [wrapTextF, wrapText, wrapTextList, hw]
      | true =>
          obtain ⟨n, hn⟩ := skwGoF_eq cw width (Nat.pos_of_ne_zero hw) (splitOnChar ' ' s)
            ⟨[], [], 0, true⟩ (Nat.zero_le width)
          refine ⟨n, ?_⟩
          simp only [wrapTextF, if_neg hw, if_pos rfl, hn, Option.map_some]
          simp [wrapText, wrapTextList, hw, splitKeepingWords]
  · by_cases hw : width = 0
    · refine ⟨0, ?_⟩
      simp [wrapTextColorF, wrapTextColor, hw]
    · cases keepWords with
      | true =>
          refine ⟨0, ?_⟩
          simp [wrapTextColorF, wrapTextColor, hw]
      | false =>
          refine ⟨2 * s.length + 2, ?_⟩
          have htot := chunksColorF_total cw width s
          rcases hv : chunksColorF cw width (2 * s.length + 2) s with _ | v
          · rw [hv] at htot
            simp at htot
          · simp [wrapTextColorF, wrapTextColor, chunksColor, hw, hv]
